import Mathlib

/-!
Verification of the PyDrocsid event-dispatch / synchronization core
(`PyDrocsid/multilock.py`, `PyDrocsid/events.py`, `PyDrocsid/pubsub.py`)
against its natural-language specification.

The Python dictionaries (`self.locks`, `self.requests`, `event_handlers`)
are embedded as association lists with Python-dict semantics: lookup
finds the first matching key, assignment updates in place or appends,
`pop` removes the entry.  Machine integers do not occur; Python's
unbounded `int` counters are embedded as `Int`.
-/

namespace PyDrocsid

/-! ## Association lists with Python-dict semantics -/

/-- `d.get(k)` / `d[k]` presence test: first value stored under `k`, if any. -/
def aget? {K V : Type} [DecidableEq K] (d : List (K × V)) (k : K) : Option V :=
  match d with
  | [] => none
  | (k', v) :: rest => if k' = k then some v else aget? rest k

/-- `d[k] = v`: update the entry for `k` in place, or append a new one. -/
def aset {K V : Type} [DecidableEq K] (d : List (K × V)) (k : K) (v : V) : List (K × V) :=
  match d with
  | [] => [(k, v)]
  | (k', v') :: rest => if k' = k then (k', v) :: rest else (k', v') :: aset rest k v

/-- `d.pop(k)`: remove the entry for `k` (first occurrence). -/
def apop {K V : Type} [DecidableEq K] (d : List (K × V)) (k : K) : List (K × V) :=
  match d with
  | [] => []
  | (k', v') :: rest => if k' = k then rest else (k', v') :: apop rest k

/-- Keys of a Python dict are distinct; all reachable states keep this. -/
def KeysDistinct {K V : Type} (d : List (K × V)) : Prop :=
  d.Pairwise (fun a b => a.1 ≠ b.1)

/-! ## MultiLock (`PyDrocsid/multilock.py`)

`MultiLock` holds `self.locks : dict[T, Lock]` and `self.requests : dict[T, int]`.
An `asyncio.Lock` is embedded as its `_locked` flag (`Bool`); a fresh `Lock()`
is unlocked.  `await lock.acquire()` suspends while the flag is set and
flips it once the lock is free; it touches neither dictionary.  We therefore
split `MultiLock.acquire` into its two phases:

  * `acquireEnter` — the synchronous part: `self.locks.setdefault(key, Lock())`
    followed by `self.requests[key] = self.requests.get(key, 0) + 1`;
  * `lockObtain` — completion of `await lock.acquire()` (possible only when
    the lock is currently free; `none` means the caller would block).
-/

structure MultiLock (K : Type) where
  locks : List (K × Bool)
  requests : List (K × Int)
deriving DecidableEq, Repr

/-- The freshly-constructed `MultiLock()`: both dictionaries empty. -/
def MultiLock.empty (K : Type) : MultiLock K := ⟨[], []⟩

/-- Synchronous prefix of `MultiLock.acquire`:
`lock: Lock = self.locks.setdefault(key, Lock())` and
`self.requests[key] = self.requests.get(key, 0) + 1`. -/
def MultiLock.acquireEnter {K : Type} [DecidableEq K] (m : MultiLock K) (key : K) :
    MultiLock K :=
  let locks := match aget? m.locks key with
    | some _ => m.locks
    | none => m.locks ++ [(key, false)]
  { locks := locks
    requests := aset m.requests key ((aget? m.requests key).getD 0 + 1) }

/-- Completion of `await lock.acquire()`: possible exactly when the lock for
`key` is present and free; `none` models a caller that stays blocked. -/
def MultiLock.lockObtain {K : Type} [DecidableEq K] (m : MultiLock K) (key : K) :
    Option (MultiLock K) :=
  match aget? m.locks key with
  | some false => some { m with locks := aset m.locks key true }
  | _ => none

/-- `MultiLock.acquire` when it completes without suspending (uncontended). -/
def MultiLock.acquire {K : Type} [DecidableEq K] (m : MultiLock K) (key : K) :
    Option (MultiLock K) :=
  (m.acquireEnter key).lockObtain key

/-- Exceptions `MultiLock.release` can raise: `self.locks[key]` /
`self.requests[key]` raise `KeyError` on a missing key, and
`Lock.release()` raises `RuntimeError` when the lock is not acquired. -/
inductive MLErr : Type
  | keyError
  | runtimeError
deriving DecidableEq, Repr

/-- `MultiLock.release`:
```
lock: Lock = self.locks[key]
lock.release()
self.requests[key] -= 1
if not self.requests[key]:
    self.locks.pop(key)
    self.requests.pop(key)
``` -/
def MultiLock.release {K : Type} [DecidableEq K] (m : MultiLock K) (key : K) :
    Except MLErr (MultiLock K) :=
  match aget? m.locks key with
  | none => .error .keyError
  | some locked =>
    if locked = false then .error .runtimeError
    else
      let locks := aset m.locks key false
      match aget? m.requests key with
      | none => .error .keyError
      | some c =>
        let c := c - 1
        let requests := aset m.requests key c
        if c = 0 then .ok { locks := apop locks key, requests := apop requests key }
        else .ok { locks := locks, requests := requests }

/-- `_LockContext.__aenter__`: `if self.key is not None: await
self.multilock.acquire(self.key)` — the `None` guard lives here, not in
`MultiLock.acquire`. -/
def lockContextEnter {K : Type} [DecidableEq K] (m : MultiLock K) (key : Option K) :
    Option (MultiLock K) :=
  match key with
  | none => some m
  | some k => m.acquire k

/-- `_LockContext.__aexit__`: `if self.key is not None:
self.multilock.release(self.key)`. -/
def lockContextExit {K : Type} [DecidableEq K] (m : MultiLock K) (key : Option K) :
    Except MLErr (MultiLock K) :=
  match key with
  | none => .ok m
  | some k => m.release k

/-! ### Task-labelled operation traces

asyncio runs tasks cooperatively on one thread, so an execution of a
`MultiLock` is a sequence of atomic steps.  Each step carries the id of the
task performing it; the task id is *ghost* data — `MultiLock` itself never
consults it (which is exactly what claim C6 is about), but a specification-
level `holder` map records which task most recently completed `acquire`
for each key. -/

inductive MLOp (K : Type) : Type
  | enter (t : Nat) (key : K)
  | obtain (t : Nat) (key : K)
  | rel (t : Nat) (key : K)
deriving DecidableEq, Repr

def MLOp.key {K : Type} : MLOp K → K
  | .enter _ k => k
  | .obtain _ k => k
  | .rel _ k => k

def MLOp.isEnter {K : Type} : MLOp K → Bool
  | .enter _ _ => true
  | _ => false

def MLOp.isRel {K : Type} : MLOp K → Bool
  | .rel _ _ => true
  | _ => false

inductive MLRunErr : Type
  | blocked
  | raised (e : MLErr)
deriving DecidableEq, Repr

structure MLTraceState (K : Type) where
  ml : MultiLock K
  /-- Ghost: the task that last completed `acquire(key)` and has not released. -/
  holder : List (K × Nat)
deriving DecidableEq, Repr

def MLTraceState.init (K : Type) : MLTraceState K := ⟨MultiLock.empty K, []⟩

/-- One atomic step of a task against the shared `MultiLock`. -/
def mlStep {K : Type} [DecidableEq K] (s : MLTraceState K) :
    MLOp K → Except MLRunErr (MLTraceState K)
  | .enter _ k => .ok { s with ml := s.ml.acquireEnter k }
  | .obtain t k =>
    match s.ml.lockObtain k with
    | some m => .ok { ml := m, holder := aset s.holder k t }
    | none => .error .blocked
  | .rel _ k =>
    -- `MultiLock.release` ignores the calling task entirely.
    match s.ml.release k with
    | .ok m => .ok { ml := m, holder := apop s.holder k }
    | .error e => .error (.raised e)

/-- Run a sequence of steps; the first exception / block aborts the run. -/
def mlRun {K : Type} [DecidableEq K] (ops : List (MLOp K)) (s : MLTraceState K) :
    Except MLRunErr (MLTraceState K) :=
  match ops with
  | [] => .ok s
  | op :: rest =>
    match mlStep s op with
    | .ok s' => mlRun rest s'
    | .error e => .error e

/-! ### Invariants of the lock table -/

/-- Both dictionaries of a `MultiLock` have distinct keys. -/
def MLWf {K : Type} (m : MultiLock K) : Prop :=
  KeysDistinct m.locks ∧ KeysDistinct m.requests

/-- Pending-count invariant for a single key `k`: `c` pending `acquire`
calls (entered, not yet released).  With no pending call there is no table
entry at all; otherwise the request counter equals `c` and a lock object
exists. -/
def PendInv {K : Type} [DecidableEq K] (k : K) (c : Nat) (m : MultiLock K) : Prop :=
  if c = 0 then aget? m.locks k = none ∧ aget? m.requests k = none
  else aget? m.requests k = some (c : Int) ∧ ∃ b, aget? m.locks k = some b

/-! ## Event registry and dispatcher (`PyDrocsid/events.py`)

Event handlers are async callables invoked with positional arguments; a
handler may raise `StopEventHandling`, raise `PermissionError(*args)`, raise
any other exception, or return normally.  A handler is embedded as a
function from the argument list and the ambient state (its side-effect
channel, e.g. an append-only log) to an outcome plus a new state.  The
dispatcher additionally produces a *ghost trace* of observable events: one
entry for each `call_event_handlers` invocation (with its raw `identifier`
argument) and one entry per handler invocation (with the handler's position
and the arguments it receives).  The `async with handler_lock[identifier]`
serialization is modelled by the `DispatchSys` transition system further
below; within one dispatch it has no effect on the result. -/

/-- Outcome of awaiting one handler. -/
inductive HandlerOutcome (α : Type) : Type
  | ok
  | stop
  | permError (eargs : List α)
  | exc

/-- Synchronisation identifiers: an atomic caller-supplied id, or a Python
tuple `(event, identifier)` whose second component may be `None`. -/
inductive Ident (ι : Type) : Type
  | raw (i : ι)
  | pair (event : String) (inner : Option (Ident ι))

/-- An event handler: `async def handler(*args)` with side effects in `σ`. -/
def Handler (α σ : Type) : Type := List α → σ → HandlerOutcome α × σ

/-- The module-level `event_handlers: dict[str, list[Callable]]`. -/
def Registry (α σ : Type) : Type := List (String × List (Handler α σ))

/-- Ghost trace entries: dispatcher entries and handler invocations. -/
inductive TraceEv (α ι : Type) : Type
  | dispatch (event : String) (identifier : Option (Ident ι))
  | invoke (event : String) (idx : Nat) (args : List α)

/-- Exceptions that escape `call_event_handlers`: a re-raised
`PermissionError` (only while dispatching `"permission_error"`), or any
other exception a handler raised. -/
inductive DExn (α : Type) : Type
  | perm (eargs : List α)
  | exc

/-- Result of a dispatch: the returned boolean or an escaping exception,
the final state, and the ghost trace. -/
structure DRes (α ι σ : Type) : Type where
  res : Except (DExn α) Bool
  st : σ
  tr : List (TraceEv α ι)

/-- `event_handlers.setdefault(name, []).append(func)`. -/
def setdefaultAppend {K V : Type} [DecidableEq K] (d : List (K × List V)) (k : K) (v : V) :
    List (K × List V) :=
  match aget? d k with
  | some vs => aset d k (vs ++ [v])
  | none => d ++ [(k, [v])]

/-- Python's `str.startswith`: the characters of `pre` are a prefix of the
characters of `s`.  (Lean's own `String.startsWith` is the same test, but
its `Substring` implementation does not evaluate in the kernel.) -/
def pyStartsWith (s pre : String) : Bool := pre.data.isPrefixOf s.data

/-- A named async function (`func` with its `__name__`). -/
structure NamedFunc (α σ : Type) where
  name : String
  fn : Handler α σ

/-- The `listener` decorator:
```
name: str = func.__name__
if not name.startswith("on_"):
    raise Exception("Invalid listener name")
event_handlers.setdefault(name[3:], []).append(func)
return func
``` -/
def listener {α σ : Type} (eh : Registry α σ) (func : NamedFunc α σ) :
    Except String (Registry α σ × NamedFunc α σ) :=
  if ¬ pyStartsWith func.name "on_" then .error "Invalid listener name"
  else .ok (setdefaultAppend eh (func.name.drop 3) func.fn, func)

mutual

/-- `call_event_handlers(event, *args, identifier=None, prepare=None)`:
```
identifier = (event, identifier) if identifier is not None else None
async with handler_lock[identifier]:
    if prepare is not None:
        if (prep_args := await prepare()) is None:
            return False
        args = tuple(prep_args)
    for handler in event_handlers.get(event, []):
        ...
    return True
``` -/
def call_event_handlers {α ι σ : Type} (reg : Registry α σ) (event : String)
    (args : List α) (identifier : Option (Ident ι))
    (prepare : Option (σ → Option (List α) × σ)) (s : σ) : DRes α ι σ :=
  let ident : Option (Ident ι) :=
    match identifier with
    | some i => some (.pair event (some i))
    | none => none
  match prepare with
  | some p =>
    match p s with
    | (none, s') => ⟨.ok false, s', [.dispatch event identifier]⟩
    | (some prepArgs, s') =>
      let r := handlersLoop reg event ident ((aget? reg event).getD []) 0 prepArgs s'
      ⟨r.res, r.st, .dispatch event identifier :: r.tr⟩
  | none =>
    let r := handlersLoop reg event ident ((aget? reg event).getD []) 0 args s
    ⟨r.res, r.st, .dispatch event identifier :: r.tr⟩
termination_by ((if event = "permission_error" then 0 else 1), 1, 0)

/-- The handler loop of `call_event_handlers`:
```
for handler in event_handlers.get(event, []):
    try:
        await handler(*args)
    except StopEventHandling:
        return False
    except PermissionError as e:
        if event == "permission_error":
            raise
        await call_event_handlers("permission_error", *e.args,
                                  identifier=("permission_error", identifier))
return True
```
`ident` is the rebound composite `identifier`; `idx` is the position of the
next handler (ghost, for the trace only). -/
def handlersLoop {α ι σ : Type} (reg : Registry α σ) (event : String)
    (ident : Option (Ident ι)) (hs : List (Handler α σ)) (idx : Nat)
    (args : List α) (s : σ) : DRes α ι σ :=
  match hs with
  | [] => ⟨.ok true, s, []⟩
  | h :: rest =>
    match h args s with
    | (.ok, s') =>
      let r := handlersLoop reg event ident rest (idx + 1) args s'
      ⟨r.res, r.st, .invoke event idx args :: r.tr⟩
    | (.stop, s') => ⟨.ok false, s', [.invoke event idx args]⟩
    | (.exc, s') => ⟨.error .exc, s', [.invoke event idx args]⟩
    | (.permError eargs, s') =>
      if hpe : event = "permission_error" then
        ⟨.error (.perm eargs), s', [.invoke event idx args]⟩
      else
        let r := call_event_handlers reg "permission_error" eargs
          (some (.pair "permission_error" ident)) none s'
        match r.res with
        | .error e => ⟨.error e, r.st, .invoke event idx args :: r.tr⟩
        | .ok _ =>
          let r2 := handlersLoop reg event ident rest (idx + 1) args r.st
          ⟨r2.res, r2.st, .invoke event idx args :: (r.tr ++ r2.tr)⟩
termination_by ((if event = "permission_error" then 0 else 1), 0, hs.length)
decreasing_by
  all_goals simp_wf
  · apply Prod.Lex.right
    apply Prod.Lex.right
    omega
  · apply Prod.Lex.left
    simp [hpe]
  · apply Prod.Lex.right
    apply Prod.Lex.right
    omega

end

/-! ### Characterization lemmas for the dispatcher -/

/-- `identifier = (event, identifier) if identifier is not None else None`. -/
def compIdent {ι : Type} (event : String) (identifier : Option (Ident ι)) :
    Option (Ident ι) :=
  match identifier with
  | some i => some (.pair event (some i))
  | none => none

/-- Accumulated side effects of running a list of handlers in order. -/
def effFold {α σ : Type} (hs : List (Handler α σ)) (args : List α) (s : σ) : σ :=
  hs.foldl (fun st h => (h args st).2) s

/-- The trace of `n` consecutive handler invocations starting at index `idx`. -/
def invokes {α : Type} (ι : Type) (event : String) (idx : Nat) (args : List α) (n : Nat) :
    List (TraceEv α ι) :=
  (List.range n).map (fun j => .invoke event (idx + j) args)

/-! ## PubSub channel (`PyDrocsid/pubsub.py`)

A `Subscription` wraps an async callback defined in a cog class; calling it
returns the "no answer" sentinel `None` without invoking the callback when
the cog class is unset, its singleton `instance` does not exist, or its
package is not in `Config.ENABLED_COG_PACKAGES`.  `PubSubChannel.publish`
gathers all subscription calls and keeps the non-`None` results.
`asyncio.gather` preserves the order of its inputs in its result list; side
effects thread through the single-threaded scheduler. -/

/-- The cog class a subscription is bound to: its singleton `instance`
(if the cog is loaded) and its module's `__package__`. -/
structure Cog (Inst : Type) where
  inst : Option Inst
  pkg : String

/-- A subscription: `self._cls` (set by `__set_name__`, `None` before) and
`self._func`, which receives the cog instance and returns `None` for "no
answer". -/
structure Subscription (Inst α ρ σ : Type) where
  cls : Option (Cog Inst)
  func : Inst → List α → σ → Option ρ × σ

/-- `Subscription.__call__`:
```
if not self._cls or not self._cls.instance:
    return None
if sys.modules[self._cls.__module__].__package__ not in Config.ENABLED_COG_PACKAGES:
    return None
async with db_context():
    return await self._func(self._cls.instance, *args, **kwargs)
```
(`db_context()` is a scoped data-access session with no observable effect
in this model.) -/
def Subscription.call {Inst α ρ σ : Type} (enabled : List String)
    (sub : Subscription Inst α ρ σ) (args : List α) (s : σ) : Option ρ × σ :=
  match sub.cls with
  | none => (none, s)
  | some c =>
    match c.inst with
    | none => (none, s)
    | some i =>
      if c.pkg ∈ enabled then sub.func i args s
      else (none, s)

/-- `await asyncio.gather(*[sub(*args, **kwargs) for sub in subs])`: every
subscription is invoked and awaited; results keep registration order. -/
def gatherCalls {Inst α ρ σ : Type} (enabled : List String)
    (subs : List (Subscription Inst α ρ σ)) (args : List α) (s : σ) :
    List (Option ρ) × σ :=
  match subs with
  | [] => ([], s)
  | sub :: rest =>
    let (r, s') := Subscription.call enabled sub args s
    let (rs, s'') := gatherCalls enabled rest args s'
    (r :: rs, s'')

/-- `PubSubChannel.publish` (also the channel object's `__call__`):
`return [r for r in result if r is not None]`. -/
def publish {Inst α ρ σ : Type} (enabled : List String)
    (subs : List (Subscription Inst α ρ σ)) (args : List α) (s : σ) :
    List ρ × σ :=
  let (result, s') := gatherCalls enabled subs args s
  (result.filterMap id, s')

/-! ## Serialization of concurrent dispatches (claim C1)

`call_event_handlers` wraps its prepare step and handler loop in
`async with handler_lock[identifier]`, where `handler_lock : MultiLock` and
`identifier` is the composite key `(event, caller_id)` — or `None`, in
which case `_LockContext` skips the lock entirely.  asyncio schedules tasks
cooperatively, so a system of concurrent dispatches is an interleaving of
atomic steps.  Each task here is one `call_event_handlers` call with a
fixed composite key: `ready` (before `__aenter__`), `body` (inside the
`async with` block: prepare + handler invocations), `done` (after
`__aexit__`).  The per-key `Bool` is the `_locked` flag of the
`asyncio.Lock` stored in `handler_lock.locks[k]`; entering the body sets
it (completion of `await lock.acquire()`, possible only while it is
`false`), leaving clears it (`release`).  The reference-count bookkeeping
of the table, orthogonal to serialization, is verified on `MultiLock`
above. -/

inductive DPhase : Type
  | ready
  | body
  | done
deriving DecidableEq, Repr

structure DState (n : Nat) (K : Type) where
  phase : Fin n → DPhase
  locked : K → Bool

/-- One cooperative-scheduler step of the system of dispatch tasks with
composite keys `keys`. -/
inductive DStep {n : Nat} {K : Type} [DecidableEq K] (keys : Fin n → Option K) :
    DState n K → DState n K → Prop
  | enterNone (i : Fin n) (s : DState n K) :
      keys i = none → s.phase i = .ready →
      DStep keys s ⟨fun j => if j = i then .body else s.phase j, s.locked⟩
  | enterLock (i : Fin n) (k : K) (s : DState n K) :
      keys i = some k → s.phase i = .ready → s.locked k = false →
      DStep keys s ⟨fun j => if j = i then .body else s.phase j,
                    fun k' => if k' = k then true else s.locked k'⟩
  | exitNone (i : Fin n) (s : DState n K) :
      keys i = none → s.phase i = .body →
      DStep keys s ⟨fun j => if j = i then .done else s.phase j, s.locked⟩
  | exitLock (i : Fin n) (k : K) (s : DState n K) :
      keys i = some k → s.phase i = .body →
      DStep keys s ⟨fun j => if j = i then .done else s.phase j,
                    fun k' => if k' = k then false else s.locked k'⟩

/-- All tasks pending, all locks free. -/
def DInit (n : Nat) (K : Type) : DState n K := ⟨fun _ => .ready, fun _ => false⟩

def DReachable {n : Nat} {K : Type} [DecidableEq K] (keys : Fin n → Option K)
    (s : DState n K) : Prop :=
  Relation.ReflTransGen (DStep keys) (DInit n K) s

/-- Lock-consistency invariant: at most one body per non-`None` key, a body
task holds its lock, and a held lock belongs to some body task. -/
def DInv {n : Nat} {K : Type} (keys : Fin n → Option K) (s : DState n K) : Prop :=
  (∀ i j : Fin n, ∀ k : K, keys i = some k → keys j = some k →
    s.phase i = .body → s.phase j = .body → i = j) ∧
  (∀ (i : Fin n) (k : K), keys i = some k → s.phase i = .body → s.locked k = true) ∧
  (∀ k : K, s.locked k = true → ∃ i : Fin n, keys i = some k ∧ s.phase i = .body)

/-! ## Theorems -/

theorem aget?_aset_self {K V : Type} [DecidableEq K] (d : List (K × V)) (k : K) (v : V) :
    aget? (aset d k v) k = some v := by
  induction d with
  | nil => simp [aget?, aset]
  | cons hd tl ih =>
    obtain ⟨k', v'⟩ := hd
    by_cases h : k' = k <;> simp [aget?, aset, h, ih]

theorem aget?_aset_ne {K V : Type} [DecidableEq K] (d : List (K × V)) (k k' : K) (v : V)
    (h : k ≠ k') : aget? (aset d k v) k' = aget? d k' := by
  induction d with
  | nil => simp [aget?, aset, h]
  | cons hd tl ih =>
    obtain ⟨k₀, v₀⟩ := hd
    by_cases h₀ : k₀ = k
    · subst h₀; simp [aget?, aset, h]
    · by_cases h₁ : k₀ = k'
      · subst h₁; simp [aget?, aset, h₀]
      · simp [aget?, aset, h₀, h₁, ih]

theorem aget?_eq_none_of_forall {K V : Type} [DecidableEq K] (d : List (K × V)) (k : K)
    (h : ∀ p ∈ d, p.1 ≠ k) : aget? d k = none := by
  induction d with
  | nil => rfl
  | cons hd tl ih =>
    obtain ⟨k', v'⟩ := hd
    have : k' ≠ k := h (k', v') (by simp)
    simp only [aget?, if_neg this]
    exact ih fun p hp => h p (by simp [hp])

theorem mem_aset {K V : Type} [DecidableEq K] {d : List (K × V)} {k : K} {v : V} {p : K × V}
    (hp : p ∈ aset d k v) : p = (k, v) ∨ p ∈ d := by
  induction d with
  | nil => simpa [aset] using hp
  | cons hd tl ih =>
    obtain ⟨k₀, v₀⟩ := hd
    by_cases h₀ : k₀ = k
    · subst h₀
      simp only [aset, if_pos rfl] at hp
      rcases List.mem_cons.mp hp with h1 | h1
      · exact Or.inl h1
      · exact Or.inr (by simp [h1])
    · simp only [aset, if_neg h₀] at hp
      rcases List.mem_cons.mp hp with h1 | h1
      · exact Or.inr (by simp [h1])
      · rcases ih h1 with h2 | h2
        · exact Or.inl h2
        · exact Or.inr (by simp [h2])

theorem mem_apop {K V : Type} [DecidableEq K] {d : List (K × V)} {k : K} {p : K × V}
    (hp : p ∈ apop d k) : p ∈ d := by
  induction d with
  | nil => simp [apop] at hp
  | cons hd tl ih =>
    obtain ⟨k₀, v₀⟩ := hd
    by_cases h₀ : k₀ = k
    · simp only [apop, if_pos h₀] at hp
      exact List.mem_cons.mpr (Or.inr hp)
    · simp only [apop, if_neg h₀] at hp
      rcases List.mem_cons.mp hp with h1 | h1
      · simp [h1]
      · exact List.mem_cons.mpr (Or.inr (ih h1))

theorem aget?_apop_self {K V : Type} [DecidableEq K] (d : List (K × V)) (k : K)
    (hd : KeysDistinct d) : aget? (apop d k) k = none := by
  induction d with
  | nil => rfl
  | cons hd' tl ih =>
    obtain ⟨k', v'⟩ := hd'
    rcases List.pairwise_cons.mp hd with ⟨hks, htl⟩
    by_cases h : k' = k
    · subst h
      simp only [apop, if_pos rfl]
      exact aget?_eq_none_of_forall tl k' fun p hp => (hks p hp).symm
    · simp [aget?, apop, h, ih htl]

theorem aget?_apop_ne {K V : Type} [DecidableEq K] (d : List (K × V)) (k k' : K)
    (h : k ≠ k') : aget? (apop d k) k' = aget? d k' := by
  induction d with
  | nil => rfl
  | cons hd tl ih =>
    obtain ⟨k₀, v₀⟩ := hd
    by_cases h₀ : k₀ = k
    · subst h₀; simp [aget?, apop, h, Ne.symm h]
    · by_cases h₁ : k₀ = k'
      · subst h₁; simp [aget?, apop, h₀]
      · simp [aget?, apop, h₀, h₁, ih]

theorem keysDistinct_aset {K V : Type} [DecidableEq K] (d : List (K × V)) (k : K) (v : V)
    (hd : KeysDistinct d) : KeysDistinct (aset d k v) := by
  induction d with
  | nil => simp [aset, KeysDistinct]
  | cons hd' tl ih =>
    obtain ⟨k₀, v₀⟩ := hd'
    rcases List.pairwise_cons.mp hd with ⟨hks, htl⟩
    by_cases h : k₀ = k
    · subst h
      simp only [KeysDistinct, aset, if_pos rfl]
      exact List.pairwise_cons.mpr ⟨hks, htl⟩
    · simp only [KeysDistinct, aset, if_neg h]
      refine List.pairwise_cons.mpr ⟨?_, ih htl⟩
      intro p hp
      rcases mem_aset hp with h1 | h1
      · subst h1; exact h
      · exact hks p h1

theorem keysDistinct_apop {K V : Type} [DecidableEq K] (d : List (K × V)) (k : K)
    (hd : KeysDistinct d) : KeysDistinct (apop d k) := by
  induction d with
  | nil => exact hd
  | cons hd' tl ih =>
    obtain ⟨k₀, v₀⟩ := hd'
    rcases List.pairwise_cons.mp hd with ⟨hks, htl⟩
    by_cases h : k₀ = k
    · simp only [KeysDistinct, apop, if_pos h]
      exact htl
    · simp only [KeysDistinct, apop, if_neg h]
      refine List.pairwise_cons.mpr ⟨fun p hp => hks p (mem_apop hp), ih htl⟩

theorem keysDistinct_append_new {K V : Type} [DecidableEq K] (d : List (K × V)) (k : K) (v : V)
    (hd : KeysDistinct d) (h : aget? d k = none) : KeysDistinct (d ++ [(k, v)]) := by
  induction d with
  | nil => simp [KeysDistinct]
  | cons hd' tl ih =>
    obtain ⟨k₀, v₀⟩ := hd'
    rcases List.pairwise_cons.mp hd with ⟨hks, htl⟩
    simp only [aget?] at h
    by_cases h₀ : k₀ = k
    · simp [h₀] at h
    · rw [if_neg h₀] at h
      refine List.pairwise_cons.mpr ⟨?_, ih htl h⟩
      intro p hp
      rcases List.mem_append.mp hp with h1 | h1
      · exact hks p h1
      · simp only [List.mem_singleton] at h1
        subst h1; exact h₀

theorem aget?_append_new_self {K V : Type} [DecidableEq K] (d : List (K × V)) (k : K) (v : V)
    (h : aget? d k = none) : aget? (d ++ [(k, v)]) k = some v := by
  induction d with
  | nil => simp [aget?]
  | cons hd tl ih =>
    obtain ⟨k₀, v₀⟩ := hd
    simp only [aget?] at h ⊢
    by_cases h₀ : k₀ = k
    · simp [h₀] at h
    · rw [if_neg h₀] at h ⊢
      exact ih h

theorem aget?_append_new_ne {K V : Type} [DecidableEq K] (d : List (K × V)) (k k' : K) (v : V)
    (h : k ≠ k') : aget? (d ++ [(k, v)]) k' = aget? d k' := by
  induction d with
  | nil => simp [aget?, h]
  | cons hd tl ih =>
    obtain ⟨k₀, v₀⟩ := hd
    by_cases h₀ : k₀ = k' <;> simp [aget?, h₀, ih]

theorem mlWf_empty (K : Type) : MLWf (MultiLock.empty K) :=
  ⟨List.Pairwise.nil, List.Pairwise.nil⟩

theorem mlWf_acquireEnter {K : Type} [DecidableEq K] (m : MultiLock K) (k : K)
    (h : MLWf m) : MLWf (m.acquireEnter k) := by
  obtain ⟨hl, hr⟩ := h
  constructor
  · show KeysDistinct (match aget? m.locks k with
      | some _ => m.locks
      | none => m.locks ++ [(k, false)])
    cases hc : aget? m.locks k with
    | some b => exact hl
    | none => exact keysDistinct_append_new m.locks k false hl hc
  · exact keysDistinct_aset _ _ _ hr

/-! Computation rules for the three `MultiLock` operations, by case on the
current table contents. -/

theorem acquireEnter_eq_of_none {K : Type} [DecidableEq K] (m : MultiLock K) (k : K)
    (h : aget? m.locks k = none) :
    m.acquireEnter k =
      ⟨m.locks ++ [(k, false)], aset m.requests k ((aget? m.requests k).getD 0 + 1)⟩ := by
  unfold MultiLock.acquireEnter
  rw [h]

theorem acquireEnter_eq_of_some {K : Type} [DecidableEq K] (m : MultiLock K) (k : K) (b : Bool)
    (h : aget? m.locks k = some b) :
    m.acquireEnter k = ⟨m.locks, aset m.requests k ((aget? m.requests k).getD 0 + 1)⟩ := by
  unfold MultiLock.acquireEnter
  rw [h]

theorem lockObtain_eq_of_none {K : Type} [DecidableEq K] (m : MultiLock K) (k : K)
    (h : aget? m.locks k = none) : m.lockObtain k = none := by
  unfold MultiLock.lockObtain
  rw [h]

theorem lockObtain_eq_of_true {K : Type} [DecidableEq K] (m : MultiLock K) (k : K)
    (h : aget? m.locks k = some true) : m.lockObtain k = none := by
  unfold MultiLock.lockObtain
  rw [h]

theorem lockObtain_eq_of_false {K : Type} [DecidableEq K] (m : MultiLock K) (k : K)
    (h : aget? m.locks k = some false) :
    m.lockObtain k = some { m with locks := aset m.locks k true } := by
  unfold MultiLock.lockObtain
  rw [h]

theorem release_eq_of_none {K : Type} [DecidableEq K] (m : MultiLock K) (k : K)
    (h : aget? m.locks k = none) : m.release k = .error .keyError := by
  unfold MultiLock.release
  rw [h]

theorem release_eq_of_false {K : Type} [DecidableEq K] (m : MultiLock K) (k : K)
    (h : aget? m.locks k = some false) : m.release k = .error .runtimeError := by
  unfold MultiLock.release
  rw [h]
  rfl

theorem release_eq_of_true_none {K : Type} [DecidableEq K] (m : MultiLock K) (k : K)
    (h : aget? m.locks k = some true) (h2 : aget? m.requests k = none) :
    m.release k = .error .keyError := by
  unfold MultiLock.release
  rw [h]
  simp only [Bool.true_eq_false, if_false, h2]

theorem release_eq_of_true_zero {K : Type} [DecidableEq K] (m : MultiLock K) (k : K) (c : Int)
    (h : aget? m.locks k = some true) (h2 : aget? m.requests k = some c) (h3 : c - 1 = 0) :
    m.release k =
      .ok ⟨apop (aset m.locks k false) k, apop (aset m.requests k (c - 1)) k⟩ := by
  unfold MultiLock.release
  rw [h]
  simp [h2, h3]

theorem release_eq_of_true_pos {K : Type} [DecidableEq K] (m : MultiLock K) (k : K) (c : Int)
    (h : aget? m.locks k = some true) (h2 : aget? m.requests k = some c) (h3 : c - 1 ≠ 0) :
    m.release k = .ok ⟨aset m.locks k false, aset m.requests k (c - 1)⟩ := by
  unfold MultiLock.release
  rw [h]
  simp only [Bool.true_eq_false, if_false, h2, if_neg h3]

theorem mlWf_lockObtain {K : Type} [DecidableEq K] {m m' : MultiLock K} {k : K}
    (h : MLWf m) (hs : m.lockObtain k = some m') : MLWf m' := by
  obtain ⟨hl, hr⟩ := h
  cases hc : aget? m.locks k with
  | none => rw [lockObtain_eq_of_none m k hc] at hs; exact absurd hs (by simp)
  | some b =>
    cases b with
    | false =>
      rw [lockObtain_eq_of_false m k hc] at hs
      simp only [Option.some.injEq] at hs
      subst hs
      exact ⟨keysDistinct_aset _ _ _ hl, hr⟩
    | true => rw [lockObtain_eq_of_true m k hc] at hs; exact absurd hs (by simp)

theorem mlWf_release {K : Type} [DecidableEq K] {m m' : MultiLock K} {k : K}
    (h : MLWf m) (hs : m.release k = .ok m') : MLWf m' := by
  obtain ⟨hl, hr⟩ := h
  cases hc : aget? m.locks k with
  | none => rw [release_eq_of_none m k hc] at hs; exact absurd hs (by simp)
  | some locked =>
    cases locked with
    | false => rw [release_eq_of_false m k hc] at hs; exact absurd hs (by simp)
    | true =>
      cases hq : aget? m.requests k with
      | none => rw [release_eq_of_true_none m k hc hq] at hs; exact absurd hs (by simp)
      | some c =>
        by_cases hz : c - 1 = 0
        · rw [release_eq_of_true_zero m k c hc hq hz] at hs
          simp only [Except.ok.injEq] at hs
          subst hs
          exact ⟨keysDistinct_apop _ _ (keysDistinct_aset _ _ _ hl),
                 keysDistinct_apop _ _ (keysDistinct_aset _ _ _ hr)⟩
        · rw [release_eq_of_true_pos m k c hc hq hz] at hs
          simp only [Except.ok.injEq] at hs
          subst hs
          exact ⟨keysDistinct_aset _ _ _ hl, keysDistinct_aset _ _ _ hr⟩

theorem pendInv_enter {K : Type} [DecidableEq K] {k : K} {c : Nat} {m : MultiLock K}
    (h : PendInv k c m) : PendInv k (c + 1) (m.acquireEnter k) := by
  by_cases hc : c = 0
  · subst hc
    simp only [PendInv, if_pos rfl] at h
    obtain ⟨hl, hq⟩ := h
    rw [acquireEnter_eq_of_none m k hl]
    simp only [PendInv, Nat.add_one_ne_zero, if_false]
    refine ⟨?_, false, ?_⟩
    · rw [hq]
      simpa using aget?_aset_self m.requests k 1
    · exact aget?_append_new_self m.locks k false hl
  · simp only [PendInv, if_neg hc] at h
    obtain ⟨hq, b, hl⟩ := h
    rw [acquireEnter_eq_of_some m k b hl]
    simp only [PendInv, Nat.add_one_ne_zero, if_false]
    refine ⟨?_, b, hl⟩
    rw [hq]
    have := aget?_aset_self m.requests k ((some ((c : Nat) : Int)).getD 0 + 1)
    simpa [Nat.cast_add] using this

theorem pendInv_obtain {K : Type} [DecidableEq K] {k : K} {c : Nat} {m m' : MultiLock K}
    (h : PendInv k c m) (hs : m.lockObtain k = some m') : PendInv k c m' := by
  by_cases hc : c = 0
  · subst hc
    simp only [PendInv, if_pos rfl] at h
    rw [lockObtain_eq_of_none m k h.1] at hs
    exact absurd hs (by simp)
  · simp only [PendInv, if_neg hc] at h
    obtain ⟨hq, b, hl⟩ := h
    cases b with
    | true =>
      rw [lockObtain_eq_of_true m k hl] at hs
      exact absurd hs (by simp)
    | false =>
      rw [lockObtain_eq_of_false m k hl] at hs
      simp only [Option.some.injEq] at hs
      subst hs
      simp only [PendInv, if_neg hc]
      exact ⟨hq, true, aget?_aset_self m.locks k true⟩

theorem pendInv_release {K : Type} [DecidableEq K] {k : K} {c : Nat} {m m' : MultiLock K}
    (hw : MLWf m) (h : PendInv k c m) (hs : m.release k = .ok m') :
    c ≠ 0 ∧ PendInv k (c - 1) m' := by
  by_cases hc : c = 0
  · subst hc
    simp only [PendInv, if_pos rfl] at h
    rw [release_eq_of_none m k h.1] at hs
    exact absurd hs (by simp)
  · refine ⟨hc, ?_⟩
    simp only [PendInv, if_neg hc] at h
    obtain ⟨hq, b, hl⟩ := h
    cases b with
    | false =>
      rw [release_eq_of_false m k hl] at hs
      exact absurd hs (by simp)
    | true =>
      by_cases h1 : c = 1
      · subst h1
        rw [release_eq_of_true_zero m k 1 hl hq (by norm_num)] at hs
        simp only [Except.ok.injEq] at hs
        subst hs
        simp only [PendInv, Nat.sub_self, if_pos rfl]
        exact ⟨aget?_apop_self _ k (keysDistinct_aset _ _ _ hw.1),
               aget?_apop_self _ k (keysDistinct_aset _ _ _ hw.2)⟩
      · have hge : 2 ≤ c := by omega
        have hnz : ((c : Nat) : Int) - 1 ≠ 0 := by
          intro hcontra
          omega
        rw [release_eq_of_true_pos m k (c : Int) hl hq hnz] at hs
        simp only [Except.ok.injEq] at hs
        subst hs
        have hsub : ((c : Nat) : Int) - 1 = (((c - 1 : Nat) : Nat) : Int) := by
          omega
        simp only [PendInv, if_neg (by omega : ¬c - 1 = 0)]
        refine ⟨?_, false, aget?_aset_self m.locks k false⟩
        rw [← hsub]
        exact aget?_aset_self m.requests k _

/-- Running a successfully-completing trace of operations all on key `k`
keeps the pending-count invariant; the final pending count balances the
enters against the releases. -/
theorem mlRun_pendInv {K : Type} [DecidableEq K] (k : K) :
    ∀ (ops : List (MLOp K)) (c : Nat) (s s' : MLTraceState K),
      MLWf s.ml → PendInv k c s.ml → (∀ op ∈ ops, op.key = k) →
      mlRun ops s = .ok s' →
      ∃ c', MLWf s'.ml ∧ PendInv k c' s'.ml ∧
        c' + ops.countP (·.isRel) = c + ops.countP (·.isEnter) := by
  intro ops
  induction ops with
  | nil =>
    intro c s s' hw hp _ hrun
    simp only [mlRun] at hrun
    cases hrun
    exact ⟨c, hw, hp, by simp⟩
  | cons op rest ih =>
    intro c s s' hw hp hkeys hrun
    have hopk : op.key = k := hkeys op (by simp)
    simp only [mlRun] at hrun
    cases op with
    | enter t k' =>
      have hk' : k' = k := hopk
      subst hk'
      simp only [mlStep] at hrun
      obtain ⟨c', hw', hp', hcount⟩ :=
        ih (c + 1) _ s' (mlWf_acquireEnter s.ml k' hw) (pendInv_enter hp)
          (fun o ho => hkeys o (by simp [ho])) hrun
      refine ⟨c', hw', hp', ?_⟩
      have hc1 : (MLOp.enter t k' :: rest).countP (·.isEnter) =
          rest.countP (·.isEnter) + 1 := by
        simp [List.countP_cons, MLOp.isEnter]
      have hc2 : (MLOp.enter t k' :: rest).countP (·.isRel) =
          rest.countP (·.isRel) := by
        simp [List.countP_cons, MLOp.isRel]
      rw [hc1, hc2]
      omega
    | obtain t k' =>
      have hk' : k' = k := hopk
      subst hk'
      simp only [mlStep] at hrun
      cases hob : s.ml.lockObtain k' with
      | none => rw [hob] at hrun; exact absurd hrun (by simp)
      | some m2 =>
        rw [hob] at hrun
        obtain ⟨c', hw', hp', hcount⟩ :=
          ih c _ s' (mlWf_lockObtain hw hob) (pendInv_obtain hp hob)
            (fun o ho => hkeys o (by simp [ho])) hrun
        refine ⟨c', hw', hp', ?_⟩
        have hc1 : (MLOp.obtain t k' :: rest).countP (·.isEnter) =
            rest.countP (·.isEnter) := by
          simp [List.countP_cons, MLOp.isEnter]
        have hc2 : (MLOp.obtain t k' :: rest).countP (·.isRel) =
            rest.countP (·.isRel) := by
          simp [List.countP_cons, MLOp.isRel]
        rw [hc1, hc2]
        omega
    | rel t k' =>
      have hk' : k' = k := hopk
      subst hk'
      simp only [mlStep] at hrun
      cases hrel : s.ml.release k' with
      | error e => rw [hrel] at hrun; exact absurd hrun (by simp)
      | ok m2 =>
        rw [hrel] at hrun
        obtain ⟨hcnz, hp2⟩ := pendInv_release hw hp hrel
        obtain ⟨c', hw', hp', hcount⟩ :=
          ih (c - 1) _ s' (mlWf_release hw hrel) hp2
            (fun o ho => hkeys o (by simp [ho])) hrun
        refine ⟨c', hw', hp', ?_⟩
        have hc1 : (MLOp.rel t k' :: rest).countP (·.isEnter) =
            rest.countP (·.isEnter) := by
          simp [List.countP_cons, MLOp.isEnter]
        have hc2 : (MLOp.rel t k' :: rest).countP (·.isRel) =
            rest.countP (·.isRel) + 1 := by
          simp [List.countP_cons, MLOp.isRel]
        rw [hc1, hc2]
        omega

/-! ### Claims C4, C5, C6 -/

/-- **C4, counterexample.** The claim says `MultiLock.acquire` with key
`None` is a no-op that never creates an entry.  In the code the `None`
guard lives in `_LockContext.__aenter__`, not in `MultiLock.acquire`:
calling `MultiLock.acquire(None)` directly runs
`self.locks.setdefault(None, Lock())` and increments `self.requests[None]`,
so both tables grow from size 0 to size 1. -/
theorem multiLock_acquire_none_not_noop :
    (MultiLock.empty (Option Nat)).acquire none =
        some ⟨[((none : Option Nat), true)], [((none : Option Nat), (1 : Int))]⟩ ∧
    ((MultiLock.empty (Option Nat)).acquireEnter none).locks.length = 1 ∧
    ((MultiLock.empty (Option Nat)).acquireEnter none).requests.length = 1 ∧
    (MultiLock.empty (Option Nat)).locks.length = 0 ∧
    (MultiLock.empty (Option Nat)).requests.length = 0 := by
  decide

/-- **C4 (amended).** Acquiring through the scoped lock context
(`multilock[key]`, i.e. `_LockContext.__aenter__`) with key `None` is a
no-op: `MultiLock.acquire` is never called, no entry is created in either
table and the lock table is unchanged (the exit path is likewise a no-op).
The `None` short-circuit lives in `_LockContext`, not in
`MultiLock.acquire` itself. -/
theorem lockContext_none_noop {K : Type} [DecidableEq K] (m : MultiLock K) :
    lockContextEnter m none = some m ∧ lockContextExit m none = .ok m :=
  ⟨rfl, rfl⟩

/-- **C5.** For every key `k`: each successful `release(k)` decrements the
pending-request counter, removing both the lock primitive and the counter
entry exactly when the counter reaches zero; and any successfully
completing trace of operations on `k` with `N` `acquire(k)` entries matched
by `N` `release(k)` calls leaves the lock table with no entry for `k`. -/
theorem multiLock_balanced_release_empties_table {K : Type} [DecidableEq K] (k : K) :
    (∀ (m m' : MultiLock K) (c : Int),
        MLWf m →
        aget? m.requests k = some c →
        m.release k = .ok m' →
        aget? m'.requests k = (if c - 1 = 0 then none else some (c - 1)) ∧
        aget? m'.locks k = (if c - 1 = 0 then none else some false)) ∧
    (∀ (ops : List (MLOp K)) (s' : MLTraceState K) (N : Nat),
        (∀ op ∈ ops, op.key = k) →
        mlRun ops (MLTraceState.init K) = .ok s' →
        ops.countP (·.isEnter) = N →
        ops.countP (·.isRel) = N →
        aget? s'.ml.locks k = none ∧ aget? s'.ml.requests k = none) := by
  constructor
  · intro m m' c hw hq hs
    cases hc : aget? m.locks k with
    | none => rw [release_eq_of_none m k hc] at hs; exact absurd hs (by simp)
    | some locked =>
      cases locked with
      | false => rw [release_eq_of_false m k hc] at hs; exact absurd hs (by simp)
      | true =>
        by_cases hz : c - 1 = 0
        · rw [release_eq_of_true_zero m k c hc hq hz] at hs
          simp only [Except.ok.injEq] at hs
          subst hs
          simp only [if_pos hz]
          exact ⟨aget?_apop_self _ k (keysDistinct_aset _ _ _ hw.2),
                 aget?_apop_self _ k (keysDistinct_aset _ _ _ hw.1)⟩
        · rw [release_eq_of_true_pos m k c hc hq hz] at hs
          simp only [Except.ok.injEq] at hs
          subst hs
          simp only [if_neg hz]
          exact ⟨aget?_aset_self _ _ _, aget?_aset_self _ _ _⟩
  · intro ops s' N hkeys hrun hce hcr
    have hinit : PendInv k 0 (MLTraceState.init K).ml := by
      simp [PendInv, MLTraceState.init, MultiLock.empty, aget?]
    obtain ⟨c', hw', hp', hcount⟩ :=
      mlRun_pendInv k ops 0 _ s' (mlWf_empty K) hinit hkeys hrun
    rw [hce, hcr] at hcount
    have hc0 : c' = 0 := by omega
    subst hc0
    simpa [PendInv] using hp'

/-- Witness for C5 at a concrete input: one acquire of key `5` followed by
its matching release leaves the table with no entry for `5`. -/
theorem multiLock_balanced_release_empties_table_witness :
    mlRun [MLOp.enter 0 5, MLOp.obtain 0 5, MLOp.rel 0 5] (MLTraceState.init Nat) =
        .ok ⟨⟨[], []⟩, []⟩ ∧
    (aget? (MultiLock.mk ([] : List (Nat × Bool)) ([] : List (Nat × Int))).locks 5 = none ∧
     aget? (MultiLock.mk ([] : List (Nat × Bool)) ([] : List (Nat × Int))).requests 5 = none) := by
  constructor
  · rfl
  · exact (multiLock_balanced_release_empties_table 5).2
      [MLOp.enter 0 5, MLOp.obtain 0 5, MLOp.rel 0 5] ⟨⟨[], []⟩, []⟩ 1
      (by decide) (by rfl) (by decide) (by decide)

/-- **C6, counterexample.** After task `0` — and only task `0` — acquires
key `5` (the ghost `holder` map records task `0`), a `release(5)` performed
by task `1`, which never acquired anything, succeeds silently (returns
`ok`, raising no exception) and destroys task 0's critical section:
`asyncio.Lock.release` is not owner-checked. -/
theorem multiLock_release_by_non_holder_succeeds :
    mlRun [MLOp.enter 0 5, MLOp.obtain 0 5] (MLTraceState.init Nat) =
        .ok ⟨⟨[(5, true)], [(5, 1)]⟩, [(5, 0)]⟩ ∧
    mlStep (⟨⟨[(5, true)], [(5, 1)]⟩, [(5, 0)]⟩ : MLTraceState Nat) (MLOp.rel 1 5) =
        .ok ⟨⟨[], []⟩, []⟩ := by
  constructor <;> rfl

/-- **C6 (amended).** `release(k)` raises an exception whenever no lock
entry exists for `k` (release without any outstanding acquire — in
particular any release after a balanced trace, i.e. a double release) and
whenever the lock entry exists but is not held; but a release while some
*other* task holds the lock is not detected (no owner check) and succeeds,
as the counterexample shows. -/
theorem multiLock_release_misuse_raises {K : Type} [DecidableEq K] (k : K) :
    (∀ m : MultiLock K, aget? m.locks k = none → m.release k = .error .keyError) ∧
    (∀ m : MultiLock K, aget? m.locks k = some false → m.release k = .error .runtimeError) ∧
    (∀ (ops : List (MLOp K)) (s' : MLTraceState K) (t : Nat),
        (∀ op ∈ ops, op.key = k) →
        mlRun ops (MLTraceState.init K) = .ok s' →
        ops.countP (·.isEnter) = ops.countP (·.isRel) →
        mlStep s' (MLOp.rel t k) = .error (.raised .keyError)) := by
  refine ⟨fun m h => release_eq_of_none m k h, fun m h => release_eq_of_false m k h, ?_⟩
  intro ops s' t hkeys hrun hbal
  have hinit : PendInv k 0 (MLTraceState.init K).ml := by
    simp [PendInv, MLTraceState.init, MultiLock.empty, aget?]
  obtain ⟨c', hw', hp', hcount⟩ :=
    mlRun_pendInv k ops 0 _ s' (mlWf_empty K) hinit hkeys hrun
  have hc0 : c' = 0 := by omega
  subst hc0
  simp only [PendInv, if_pos rfl] at hp'
  simp [mlStep, release_eq_of_none _ k hp'.1]

/-- Witness for the amended C6 at a concrete input: a release of key `7`
on a fresh `MultiLock`, and a double release after a balanced trace, both
raise `KeyError`. -/
theorem multiLock_release_misuse_raises_witness :
    (MultiLock.empty Nat).release 7 = .error .keyError ∧
    mlStep (⟨⟨[], []⟩, []⟩ : MLTraceState Nat) (MLOp.rel 0 7) = .error (.raised .keyError) := by
  refine ⟨(multiLock_release_misuse_raises 7).1 _ (by decide), ?_⟩
  exact (multiLock_release_misuse_raises 7).2.2
    [MLOp.enter 0 7, MLOp.obtain 0 7, MLOp.rel 0 7] ⟨⟨[], []⟩, []⟩ 0
    (by decide) (by rfl) (by decide)

theorem invokes_zero {α : Type} (ι : Type) (event : String) (idx : Nat) (args : List α) :
    invokes ι event idx args 0 = [] := rfl

theorem invokes_succ {α : Type} (ι : Type) (event : String) (idx : Nat) (args : List α)
    (n : Nat) :
    invokes ι event idx args (n + 1) =
      .invoke event idx args :: invokes ι event (idx + 1) args n := by
  unfold invokes
  rw [List.range_succ_eq_map]
  simp only [List.map_cons, Nat.add_zero, List.map_map]
  congr 1
  apply List.map_congr_left
  intro j _
  simp only [Function.comp_apply]
  congr 1
  omega

theorem handlersLoop_nil {α ι σ : Type} (reg : Registry α σ) (event : String)
    (ident : Option (Ident ι)) (idx : Nat) (args : List α) (s : σ) :
    handlersLoop reg event ident [] idx args s = ⟨.ok true, s, []⟩ := by
  rw [handlersLoop]

theorem handlersLoop_cons {α ι σ : Type} (reg : Registry α σ) (event : String)
    (ident : Option (Ident ι)) (h : Handler α σ) (rest : List (Handler α σ)) (idx : Nat)
    (args : List α) (s : σ) :
    handlersLoop reg event ident (h :: rest) idx args s =
      match h args s with
      | (.ok, s') =>
        let r := handlersLoop reg event ident rest (idx + 1) args s'
        ⟨r.res, r.st, .invoke event idx args :: r.tr⟩
      | (.stop, s') => ⟨.ok false, s', [.invoke event idx args]⟩
      | (.exc, s') => ⟨.error .exc, s', [.invoke event idx args]⟩
      | (.permError eargs, s') =>
        if event = "permission_error" then
          ⟨.error (.perm eargs), s', [.invoke event idx args]⟩
        else
          let r := call_event_handlers reg "permission_error" eargs
            (some (.pair "permission_error" ident)) none s'
          match r.res with
          | .error e => ⟨.error e, r.st, .invoke event idx args :: r.tr⟩
          | .ok _ =>
            let r2 := handlersLoop reg event ident rest (idx + 1) args r.st
            ⟨r2.res, r2.st, .invoke event idx args :: (r.tr ++ r2.tr)⟩ := by
  rw [handlersLoop]
  rcases ho : h args s with ⟨o, s'⟩
  cases o with
  | ok => rfl
  | stop => rfl
  | exc => rfl
  | permError eargs =>
    by_cases hpe : event = "permission_error" <;> simp [hpe]

theorem call_event_handlers_no_prepare {α ι σ : Type} (reg : Registry α σ) (event : String)
    (args : List α) (identifier : Option (Ident ι)) (s : σ) :
    call_event_handlers reg event args identifier none s =
      let r := handlersLoop reg event (compIdent event identifier)
        ((aget? reg event).getD []) 0 args s
      ⟨r.res, r.st, .dispatch event identifier :: r.tr⟩ := by
  rw [call_event_handlers.eq_def]
  cases identifier <;> simp [compIdent]

theorem call_event_handlers_prepare_veto {α ι σ : Type} (reg : Registry α σ) (event : String)
    (args : List α) (identifier : Option (Ident ι)) (p : σ → Option (List α) × σ) (s s' : σ)
    (hp : p s = (none, s')) :
    call_event_handlers reg event args identifier (some p) s =
      ⟨.ok false, s', [.dispatch event identifier]⟩ := by
  rw [call_event_handlers.eq_def]
  cases identifier <;> simp [hp]

theorem call_event_handlers_prepare_some {α ι σ : Type} (reg : Registry α σ) (event : String)
    (args prepArgs : List α) (identifier : Option (Ident ι)) (p : σ → Option (List α) × σ)
    (s s' : σ) (hp : p s = (some prepArgs, s')) :
    call_event_handlers reg event args identifier (some p) s =
      let r := handlersLoop reg event (compIdent event identifier)
        ((aget? reg event).getD []) 0 prepArgs s'
      ⟨r.res, r.st, .dispatch event identifier :: r.tr⟩ := by
  rw [call_event_handlers.eq_def]
  cases identifier <;> simp [hp, compIdent]

/-- Running the loop over a prefix of handlers that all complete normally
on `args` invokes them in order, accumulates their side effects, and
continues with the remaining handlers. -/
theorem handlersLoop_ok_prefix {α ι σ : Type} (reg : Registry α σ) (event : String)
    (ident : Option (Ident ι)) (args : List α) :
    ∀ (pre rest' : List (Handler α σ)) (idx : Nat) (s : σ),
      (∀ h ∈ pre, ∀ st, (h args st).1 = .ok) →
      handlersLoop reg event ident (pre ++ rest') idx args s =
        let r := handlersLoop reg event ident rest' (idx + pre.length) args
          (effFold pre args s)
        ⟨r.res, r.st, invokes ι event idx args pre.length ++ r.tr⟩ := by
  intro pre
  induction pre with
  | nil =>
    intro rest' idx s _
    simp [effFold, invokes_zero]
  | cons h pre' ih =>
    intro rest' idx s hyp
    have hok : (h args s).1 = .ok := hyp h (by simp) s
    rcases hh : h args s with ⟨o, s'⟩
    rw [hh] at hok
    simp only at hok
    subst hok
    rw [List.cons_append, handlersLoop_cons, hh]
    simp only
    rw [ih rest' (idx + 1) s' (fun h' hmem st => hyp h' (by simp [hmem]) st)]
    simp only [List.length_cons, invokes_succ]
    have heff : effFold (h :: pre') args s = effFold pre' args s' := by
      simp [effFold, hh]
    have hidx : idx + 1 + pre'.length = idx + (pre'.length + 1) := by omega
    rw [heff, hidx]
    simp

/-! ### Claims C2 and C7 -/

/-- **C2.** Handlers run one at a time in registration order.  If all
registered handlers complete normally — including the case of zero
registered handlers — the dispatch returns `True` with every handler
invoked in order and all side effects accumulated.  If some handler raises
`StopEventHandling`, no later handler is invoked, the dispatch returns
`False`, and the side effects of the handlers that already ran (including
the stopping one) remain. -/
theorem call_event_handlers_order_and_stop {α ι σ : Type} (reg : Registry α σ)
    (event : String) (args : List α) (identifier : Option (Ident ι)) (s : σ) :
    ((∀ h ∈ (aget? reg event).getD [], ∀ st : σ, (h args st).1 = .ok) →
      call_event_handlers reg event args identifier none s =
        ⟨.ok true, effFold ((aget? reg event).getD []) args s,
         .dispatch event identifier ::
           invokes ι event 0 args ((aget? reg event).getD []).length⟩) ∧
    (∀ (pre post : List (Handler α σ)) (hstop : Handler α σ),
      (aget? reg event).getD [] = pre ++ hstop :: post →
      (∀ h ∈ pre, ∀ st : σ, (h args st).1 = .ok) →
      (∀ st : σ, (hstop args st).1 = .stop) →
      call_event_handlers reg event args identifier none s =
        ⟨.ok false, (hstop args (effFold pre args s)).2,
         .dispatch event identifier ::
           (invokes ι event 0 args pre.length ++ [.invoke event pre.length args])⟩) := by
  constructor
  · intro hyp
    rw [call_event_handlers_no_prepare]
    have hsplit : (aget? reg event).getD [] =
        ((aget? reg event).getD [] : List (Handler α σ)) ++ [] := by simp
    rw [hsplit, handlersLoop_ok_prefix reg event (compIdent event identifier) args
      ((aget? reg event).getD []) [] 0 s hyp]
    simp [handlersLoop_nil]
  · intro pre post hstop hsplit hpre hstop'
    rw [call_event_handlers_no_prepare, hsplit,
      handlersLoop_ok_prefix reg event (compIdent event identifier) args
        pre (hstop :: post) 0 s hpre]
    rcases hh : hstop args (effFold pre args s) with ⟨o, s₂⟩
    have ho : o = .stop := by
      have := hstop' (effFold pre args s)
      rw [hh] at this
      simpa using this
    subst ho
    rw [handlersLoop_cons, hh]
    simp

/-- Witness for C2: two handlers appending to a log run in order and the
dispatch returns `True`; with a stopping handler in the middle the third
handler never runs, the dispatch returns `False`, and the first handler's
side effect remains. -/
theorem call_event_handlers_order_and_stop_witness :
    (call_event_handlers
        [("message", [fun _ s => (.ok, s ++ [1]), fun _ s => (.ok, s ++ [2])])]
        "message" ([] : List Nat) (some (.raw (1 : Nat))) none ([] : List Nat) =
      ⟨.ok true, [1, 2],
       [.dispatch "message" (some (.raw 1)), .invoke "message" 0 [],
        .invoke "message" 1 []]⟩) ∧
    (call_event_handlers
        [("message", [fun _ s => (.ok, s ++ [1]), fun _ s => (.stop, s ++ [2]),
                      fun _ s => (.ok, s ++ [3])])]
        "message" ([] : List Nat) (some (.raw (1 : Nat))) none ([] : List Nat) =
      ⟨.ok false, [1, 2],
       [.dispatch "message" (some (.raw 1)), .invoke "message" 0 [],
        .invoke "message" 1 []]⟩) := by
  constructor
  · have h := (call_event_handlers_order_and_stop
      [("message", [fun _ s => (.ok, s ++ [1]), fun _ s => (.ok, s ++ [2])])]
      "message" ([] : List Nat) (some (.raw (1 : Nat))) ([] : List Nat)).1
      (by
        intro h hm st
        simp [aget?] at hm
        rcases hm with rfl | rfl <;> rfl)
    exact h.trans (by rfl)
  · have h := (call_event_handlers_order_and_stop
      [("message", [fun _ s => (.ok, s ++ [1]), fun _ s => (.stop, s ++ [2]),
                    fun _ s => (.ok, s ++ [3])])]
      "message" ([] : List Nat) (some (.raw (1 : Nat))) ([] : List Nat)).2
      [fun _ s => (.ok, s ++ [1])] [fun _ s => (.ok, s ++ [3])]
      (fun _ s => (.stop, s ++ [2]))
      (by rfl)
      (by
        intro h hm st
        simp at hm
        subst hm
        rfl)
      (fun st => rfl)
    exact h.trans (by rfl)

/-- **C7.** If a `prepare` callable is supplied and returns the `None`
sentinel, the dispatch returns `False` having invoked zero handlers (the
trace holds no `invoke` entry); if `prepare` returns an iterable, the
dispatch behaves exactly like a dispatch whose positional arguments are the
values produced by `prepare` (handlers receive them in place of the
original arguments). -/
theorem call_event_handlers_prepare_veto_or_replace {α ι σ : Type} (reg : Registry α σ)
    (event : String) (args : List α) (identifier : Option (Ident ι))
    (p : σ → Option (List α) × σ) (s : σ) :
    (∀ s' : σ, p s = (none, s') →
      call_event_handlers reg event args identifier (some p) s =
        ⟨.ok false, s', [.dispatch event identifier]⟩) ∧
    (∀ (prepArgs : List α) (s' : σ), p s = (some prepArgs, s') →
      call_event_handlers reg event args identifier (some p) s =
        call_event_handlers reg event prepArgs identifier none s') := by
  constructor
  · intro s' hp
    exact call_event_handlers_prepare_veto reg event args identifier p s s' hp
  · intro prepArgs s' hp
    rw [call_event_handlers_prepare_some reg event args prepArgs identifier p s s' hp,
      call_event_handlers_no_prepare]

/-- Witness for C7: a vetoing prepare yields `False` with no handler
invoked even though a handler is registered; a non-vetoing prepare replaces
the arguments handlers receive. -/
theorem call_event_handlers_prepare_veto_or_replace_witness :
    (call_event_handlers [("edit", [fun a s => (.ok, s ++ a)])]
        "edit" ([5] : List Nat) (none : Option (Ident Nat)) (some fun s => (none, s)) [] =
      ⟨.ok false, [], [.dispatch "edit" none]⟩) ∧
    (call_event_handlers [("edit", [fun a s => (.ok, s ++ a)])]
        "edit" ([5] : List Nat) (none : Option (Ident Nat)) (some fun s => (some [7], s)) [] =
      call_event_handlers [("edit", [fun a s => (.ok, s ++ a)])]
        "edit" ([7] : List Nat) (none : Option (Ident Nat)) none []) := by
  constructor
  · exact (call_event_handlers_prepare_veto_or_replace
      [("edit", [fun a s => (.ok, s ++ a)])] "edit" [5] none _ []).1 [] rfl
  · exact (call_event_handlers_prepare_veto_or_replace
      [("edit", [fun a s => (.ok, s ++ a)])] "edit" [5] none _ []).2 [7] [] rfl

/-- A loop over handlers that only ever complete or stop returns a boolean
(no exception escapes). -/
theorem handlersLoop_no_exc {α ι σ : Type} (reg : Registry α σ) (event : String)
    (ident : Option (Ident ι)) (args : List α) :
    ∀ (hs : List (Handler α σ)) (idx : Nat) (s : σ),
      (∀ h ∈ hs, ∀ st, (h args st).1 = .ok ∨ (h args st).1 = .stop) →
      ∃ b, (handlersLoop reg event ident hs idx args s).res = .ok b := by
  intro hs
  induction hs with
  | nil =>
    intro idx s _
    exact ⟨true, by rw [handlersLoop_nil]⟩
  | cons h rest ih =>
    intro idx s hyp
    rcases hh : h args s with ⟨o, s'⟩
    have hos : o = .ok ∨ o = .stop := by
      have := hyp h (by simp) s
      rw [hh] at this
      simpa using this
    rw [handlersLoop_cons, hh]
    rcases hos with ho | ho <;> subst ho
    · simp only
      obtain ⟨b, hb⟩ := ih (idx + 1) s' (fun h' hmem st => hyp h' (by simp [hmem]) st)
      exact ⟨b, hb⟩
    · exact ⟨false, rfl⟩

/-- A loop over handlers that all complete normally invokes each in order,
returns `True` and accumulates the side effects. -/
theorem handlersLoop_all_ok {α ι σ : Type} (reg : Registry α σ) (event : String)
    (ident : Option (Ident ι)) (args : List α) (hs : List (Handler α σ)) (idx : Nat) (s : σ)
    (hyp : ∀ h ∈ hs, ∀ st : σ, (h args st).1 = .ok) :
    handlersLoop reg event ident hs idx args s =
      ⟨.ok true, effFold hs args s, invokes ι event idx args hs.length⟩ := by
  have h2 := handlersLoop_ok_prefix reg event ident args hs [] idx s hyp
  rw [List.append_nil] at h2
  rw [h2]
  simp [handlersLoop_nil]

/-- A dispatch without `prepare` whose handlers only complete or stop
returns a boolean; no exception escapes. -/
theorem call_event_handlers_res_no_exc {α ι σ : Type} (reg : Registry α σ) (event : String)
    (args : List α) (identifier : Option (Ident ι)) (s : σ)
    (hyp : ∀ h ∈ (aget? reg event).getD [], ∀ st : σ,
      (h args st).1 = .ok ∨ (h args st).1 = .stop) :
    ∃ b, (call_event_handlers reg event args identifier none s).res = .ok b := by
  rw [call_event_handlers_no_prepare]
  exact handlersLoop_no_exc reg event (compIdent event identifier) args
    ((aget? reg event).getD []) 0 s hyp

/-! ### Claims C3 and C10 -/

/-- **C3.** For a dispatch of an event other than `"permission_error"`, a
handler raising `PermissionError(*eargs)` makes the dispatcher recursively
dispatch `"permission_error"` with those arguments under the derived
identifier `("permission_error", identifier)` which nests the original
composite identifier; the `"permission_error"` handlers receive `eargs`.
During a dispatch of `"permission_error"` itself a `PermissionError`
re-raises to the caller — the trace shows no second dispatch entry, so
redirection is never re-triggered. -/
theorem call_event_handlers_permission_redirect {α ι σ : Type} (reg : Registry α σ)
    (event : String) (args eargs : List α) (identifier : Option (Ident ι)) (s : σ) :
    (∀ (pre : List (Handler α σ)) (hp : Handler α σ),
      event ≠ "permission_error" →
      (aget? reg event).getD [] = pre ++ [hp] →
      (∀ h ∈ pre, ∀ st : σ, (h args st).1 = .ok) →
      (∀ st : σ, (hp args st).1 = .permError eargs) →
      (∀ h ∈ (aget? reg "permission_error").getD [], ∀ st : σ, (h eargs st).1 = .ok) →
      call_event_handlers reg event args identifier none s =
        ⟨.ok true,
         effFold ((aget? reg "permission_error").getD []) eargs
           (hp args (effFold pre args s)).2,
         .dispatch event identifier ::
           (invokes ι event 0 args pre.length ++
             (.invoke event pre.length args ::
               (.dispatch "permission_error"
                  (some (.pair "permission_error" (compIdent event identifier))) ::
                 invokes ι "permission_error" 0 eargs
                   ((aget? reg "permission_error").getD []).length)))⟩) ∧
    (∀ (pre post : List (Handler α σ)) (hp : Handler α σ),
      (aget? reg "permission_error").getD [] = pre ++ hp :: post →
      (∀ h ∈ pre, ∀ st : σ, (h args st).1 = .ok) →
      (∀ st : σ, (hp args st).1 = .permError eargs) →
      call_event_handlers reg "permission_error" args identifier none s =
        ⟨.error (.perm eargs), (hp args (effFold pre args s)).2,
         .dispatch "permission_error" identifier ::
           (invokes ι "permission_error" 0 args pre.length ++
             [.invoke "permission_error" pre.length args])⟩) := by
  constructor
  · intro pre hp hne hsplit hpre hperm hpe
    rw [call_event_handlers_no_prepare, hsplit,
      handlersLoop_ok_prefix reg event (compIdent event identifier) args
        pre [hp] 0 s hpre]
    rcases hh : hp args (effFold pre args s) with ⟨o, s₁⟩
    have ho : o = .permError eargs := by
      have := hperm (effFold pre args s)
      rw [hh] at this
      simpa using this
    subst ho
    rw [handlersLoop_cons, hh]
    simp only [if_neg hne]
    rw [call_event_handlers_no_prepare]
    rw [handlersLoop_all_ok reg "permission_error"
      (compIdent "permission_error" (some (.pair "permission_error" (compIdent event identifier))))
      eargs ((aget? reg "permission_error").getD []) 0 s₁ hpe]
    simp [handlersLoop_nil]
  · intro pre post hp hsplit hpre hperm
    rw [call_event_handlers_no_prepare, hsplit,
      handlersLoop_ok_prefix reg "permission_error" (compIdent "permission_error" identifier)
        args pre (hp :: post) 0 s hpre]
    rcases hh : hp args (effFold pre args s) with ⟨o, s₁⟩
    have ho : o = .permError eargs := by
      have := hperm (effFold pre args s)
      rw [hh] at this
      simpa using this
    subst ho
    rw [handlersLoop_cons, hh]
    simp

/-- Witness for C3: a `"message"` handler raising `PermissionError([9])`
triggers a nested `"permission_error"` dispatch whose handler receives
`[9]`; a `"permission_error"` handler raising `PermissionError` makes that
dispatch re-raise with a single dispatch entry in the trace. -/
theorem call_event_handlers_permission_redirect_witness :
    (call_event_handlers
        [("message", [fun _ s => (.permError [9], s ++ [1])]),
         ("permission_error", [fun a s => (.ok, s ++ a)])]
        "message" ([] : List Nat) (none : Option (Ident Nat)) none ([] : List Nat) =
      ⟨.ok true, [1, 9],
       [.dispatch "message" none, .invoke "message" 0 [],
        .dispatch "permission_error" (some (.pair "permission_error" none)),
        .invoke "permission_error" 0 [9]]⟩) ∧
    (call_event_handlers
        [("permission_error", [fun _ s => (.permError [9], s ++ [1])])]
        "permission_error" ([] : List Nat) (none : Option (Ident Nat)) none ([] : List Nat) =
      ⟨.error (.perm [9]), [1],
       [.dispatch "permission_error" none, .invoke "permission_error" 0 []]⟩) := by
  constructor
  · have h := (call_event_handlers_permission_redirect
      [("message", [fun _ s => (.permError [9], s ++ [1])]),
       ("permission_error", [fun a s => (.ok, s ++ a)])]
      "message" ([] : List Nat) [9] (none : Option (Ident Nat)) ([] : List Nat)).1
      [] (fun _ s => (.permError [9], s ++ [1]))
      (by decide)
      (by rfl)
      (by intro h hm st; simp at hm)
      (fun st => rfl)
      (by
        intro h hm st
        simp [aget?] at hm
        subst hm
        rfl)
    exact h.trans (by rfl)
  · have h := (call_event_handlers_permission_redirect
      [("permission_error", [fun _ s => (.permError [9], s ++ [1])])]
      "permission_error" ([] : List Nat) [9] (none : Option (Ident Nat)) ([] : List Nat)).2
      [] [] (fun _ s => (.permError [9], s ++ [1]))
      (by rfl)
      (by intro h hm st; simp at hm)
      (fun st => rfl)
    exact h.trans (by rfl)

/-- **C10.** When a handler of an event other than `"permission_error"`
raises `PermissionError`, the dispatcher — after the redirected
`"permission_error"` dispatch completes — continues with the remaining
handlers of the original event, and the dispatch still returns `True`: an
authorization failure is not early termination and never by itself yields
`False`. -/
theorem call_event_handlers_permission_not_fatal {α ι σ : Type} (reg : Registry α σ)
    (event : String) (args eargs : List α) (identifier : Option (Ident ι)) (s : σ)
    (pre post : List (Handler α σ)) (hp : Handler α σ)
    (hne : event ≠ "permission_error")
    (hsplit : (aget? reg event).getD [] = pre ++ hp :: post)
    (hpre : ∀ h ∈ pre, ∀ st : σ, (h args st).1 = .ok)
    (hperm : ∀ st : σ, (hp args st).1 = .permError eargs)
    (hpost : ∀ h ∈ post, ∀ st : σ, (h args st).1 = .ok)
    (hpe : ∀ h ∈ (aget? reg "permission_error").getD [], ∀ st : σ,
      (h eargs st).1 = .ok ∨ (h eargs st).1 = .stop) :
    (call_event_handlers reg event args identifier none s).res = .ok true ∧
    (call_event_handlers reg event args identifier none s).tr =
      .dispatch event identifier ::
        (invokes ι event 0 args pre.length ++
          (.invoke event pre.length args ::
            ((call_event_handlers reg "permission_error" eargs
                (some (.pair "permission_error" (compIdent event identifier))) none
                (hp args (effFold pre args s)).2).tr ++
              invokes ι event (pre.length + 1) args post.length))) := by
  have hmain : call_event_handlers reg event args identifier none s =
      ⟨.ok true,
       effFold post args
         (call_event_handlers reg "permission_error" eargs
           (some (.pair "permission_error" (compIdent event identifier))) none
           (hp args (effFold pre args s)).2).st,
       .dispatch event identifier ::
         (invokes ι event 0 args pre.length ++
           (.invoke event pre.length args ::
             ((call_event_handlers reg "permission_error" eargs
                 (some (.pair "permission_error" (compIdent event identifier))) none
                 (hp args (effFold pre args s)).2).tr ++
               invokes ι event (pre.length + 1) args post.length)))⟩ := by
    rw [call_event_handlers_no_prepare, hsplit,
      handlersLoop_ok_prefix reg event (compIdent event identifier) args
        pre (hp :: post) 0 s hpre]
    rcases hh : hp args (effFold pre args s) with ⟨o, s₁⟩
    have ho : o = .permError eargs := by
      have := hperm (effFold pre args s)
      rw [hh] at this
      simpa using this
    subst ho
    rw [handlersLoop_cons, hh]
    simp only [if_neg hne]
    obtain ⟨b, hb⟩ := call_event_handlers_res_no_exc reg "permission_error" eargs
      (some (.pair "permission_error" (compIdent event identifier))) s₁ hpe
    simp only [hb]
    rw [handlersLoop_all_ok reg event (compIdent event identifier) args post
      (0 + pre.length + 1)
      (call_event_handlers reg "permission_error" eargs
        (some (.pair "permission_error" (compIdent event identifier))) none s₁).st hpost]
    simp
  rw [hmain]
  exact ⟨rfl, rfl⟩

/-- Witness for C10: a `"message"` handler raising `PermissionError` is
followed by the next `"message"` handler after the redirected dispatch,
and the dispatch returns `True`. -/
theorem call_event_handlers_permission_not_fatal_witness :
    ("message" : String) ≠ "permission_error" ∧
    (call_event_handlers
        [("message", [fun _ s => (.permError [9], s ++ [1]), fun _ s => (.ok, s ++ [2])]),
         ("permission_error", [fun a s => (.ok, s ++ a)])]
        "message" ([] : List Nat) (none : Option (Ident Nat)) none ([] : List Nat)).res =
      .ok true ∧
    (call_event_handlers
        [("message", [fun _ s => (.permError [9], s ++ [1]), fun _ s => (.ok, s ++ [2])]),
         ("permission_error", [fun a s => (.ok, s ++ a)])]
        "message" ([] : List Nat) (none : Option (Ident Nat)) none ([] : List Nat)).tr =
      .dispatch "message" none ::
        (invokes Nat "message" 0 [] 0 ++
          (.invoke "message" 0 [] ::
            ((call_event_handlers
                [("message", [fun _ s => (.permError [9], s ++ [1]), fun _ s => (.ok, s ++ [2])]),
                 ("permission_error", [fun a s => (.ok, s ++ a)])]
                "permission_error" [9] (some (.pair "permission_error" none)) none
                ([1] : List Nat)).tr ++
              invokes Nat "message" 1 [] 1))) := by
  have h := call_event_handlers_permission_not_fatal
    [("message", [fun _ s => (.permError [9], s ++ [1]), fun _ s => (.ok, s ++ [2])]),
     ("permission_error", [fun a s => (.ok, s ++ a)])]
    "message" ([] : List Nat) [9] (none : Option (Ident Nat)) ([] : List Nat)
    [] [fun _ s => (.ok, s ++ [2])] (fun _ s => (.permError [9], s ++ [1]))
    (by decide)
    (by rfl)
    (by intro h hm st; simp at hm)
    (fun st => rfl)
    (by
      intro h hm st
      simp at hm
      subst hm
      rfl)
    (by
      intro h hm st
      simp [aget?] at hm
      subst hm
      exact Or.inl rfl)
  exact ⟨by decide, h.1, h.2⟩

/-! ### Claim C9 -/

/-- **C9.** The `listener` decorator raises for a function whose name does
not start with `"on_"`; otherwise it appends the function to the handler
list of the event named by the name with the prefix stripped and returns
the function unchanged. -/
theorem listener_registration {α σ : Type} (eh : Registry α σ) (func : NamedFunc α σ) :
    (¬ pyStartsWith func.name "on_" →
      listener eh func = .error "Invalid listener name") ∧
    (pyStartsWith func.name "on_" →
      listener eh func =
        .ok (setdefaultAppend eh (func.name.drop 3) func.fn, func) ∧
      aget? (setdefaultAppend eh (func.name.drop 3) func.fn) (func.name.drop 3) =
        some (((aget? eh (func.name.drop 3)).getD []) ++ [func.fn])) := by
  constructor
  · intro h
    simp [listener, h]
  · intro h
    refine ⟨by simp [listener, h], ?_⟩
    unfold setdefaultAppend
    cases hc : aget? eh (func.name.drop 3) with
    | some vs => simpa [hc] using aget?_aset_self eh (func.name.drop 3) (vs ++ [func.fn])
    | none =>
      simpa [hc] using aget?_append_new_self eh (func.name.drop 3) [func.fn] hc

/-- Witness for C9: registering `on_message` appends its handler under key
`"message"`; a name without the `on_` prefix is rejected. -/
theorem listener_registration_witness :
    (listener ([] : Registry Nat (List Nat)) ⟨"on_message", fun _ s => (.ok, s)⟩ =
      .ok ([("message", [fun _ s => (.ok, s)])], ⟨"on_message", fun _ s => (.ok, s)⟩) ∧
     aget? (setdefaultAppend ([] : Registry Nat (List Nat)) "message"
        (fun _ s => (.ok, s))) "message" = some [fun _ s => (.ok, s)]) ∧
    listener ([] : Registry Nat (List Nat)) ⟨"message", fun _ s => (.ok, s)⟩ =
      .error "Invalid listener name" := by
  constructor
  · have h := (listener_registration ([] : Registry Nat (List Nat))
      ⟨"on_message", fun _ s => (.ok, s)⟩).2 (by decide)
    exact ⟨h.1.trans (by rfl), h.2.trans (by rfl)⟩
  · exact (listener_registration ([] : Registry Nat (List Nat))
      ⟨"message", fun _ s => (.ok, s)⟩).1 (by decide)

/-! ### Claim C8 -/

/-- **C8.** `publish` invokes and awaits every registered subscription
(each contributes exactly one slot to the gathered result list) and returns
exactly the results that are not the `None` sentinel; a subscription whose
cog class is unset, whose singleton does not exist, or whose package is
disabled yields the sentinel without running its callback or touching the
state; if every subscription yields the sentinel the result is `[]`. -/
theorem publish_collects_non_none {Inst α ρ σ : Type} (enabled : List String)
    (subs : List (Subscription Inst α ρ σ)) (args : List α) (s : σ) :
    ((gatherCalls enabled subs args s).1.length = subs.length) ∧
    (publish enabled subs args s =
      ((gatherCalls enabled subs args s).1.filterMap id,
       (gatherCalls enabled subs args s).2)) ∧
    (∀ sub : Subscription Inst α ρ σ,
      (sub.cls = none ∨ (∃ c, sub.cls = some c ∧ c.inst = none) ∨
        (∃ c, sub.cls = some c ∧ c.pkg ∉ enabled)) →
      ∀ st : σ, Subscription.call enabled sub args st = (none, st)) ∧
    ((∀ r ∈ (gatherCalls enabled subs args s).1, r = none) →
      (publish enabled subs args s).1 = []) := by
  refine ⟨?_, rfl, ?_, ?_⟩
  · induction subs generalizing s with
    | nil => rfl
    | cons sub rest ih =>
      simp only [gatherCalls]
      rcases hc : Subscription.call enabled sub args s with ⟨r, s'⟩
      simp [ih s', List.length_cons]
  · intro sub hin st
    rcases hin with h | ⟨c, hc, hi⟩ | ⟨c, hc, hp⟩
    · simp [Subscription.call, h]
    · simp [Subscription.call, hc, hi]
    · cases hi : c.inst with
      | none => simp [Subscription.call, hc, hi]
      | some i => simp [Subscription.call, hc, hi, hp]
  · intro hall
    have : (gatherCalls enabled subs args s).1.filterMap id = [] := by
      rw [List.filterMap_eq_nil_iff]
      intro a ha
      exact hall a ha
    simp [publish, this]

/-- Witness for C8: three subscriptions — one active answering `1`, one in
a disabled package, one active answering the sentinel — produce exactly
`[1]`; the disabled one returns the sentinel without side effects. -/
theorem publish_collects_non_none_witness :
    (publish ["pkgA"]
        [⟨some ⟨some (), "pkgA"⟩, fun _ _ s => (some 1, s ++ [1])⟩,
         ⟨some ⟨some (), "pkgB"⟩, fun _ _ s => (some 2, s ++ [2])⟩,
         ⟨some ⟨some (), "pkgA"⟩, fun _ _ s => (none, s)⟩]
        ([] : List Nat) ([] : List Nat) =
      ([1], [1])) ∧
    (Subscription.call ["pkgA"]
        (⟨some ⟨some (), "pkgB"⟩, fun _ _ s => ((some 2 : Option Nat), s ++ [2])⟩ :
          Subscription Unit Nat Nat (List Nat))
        [] [] = (none, [])) := by
  constructor
  · rfl
  · exact (publish_collects_non_none ["pkgA"]
      ([] : List (Subscription Unit Nat Nat (List Nat))) [] []).2.2.1
      ⟨some ⟨some (), "pkgB"⟩, fun _ _ s => (some 2, s ++ [2])⟩
      (Or.inr (Or.inr ⟨⟨some (), "pkgB"⟩, rfl, by decide⟩)) []

theorem dInv_init {n : Nat} {K : Type} (keys : Fin n → Option K) :
    DInv keys (DInit n K) := by
  refine ⟨?_, ?_, ?_⟩
  · intro i j k _ _ hb _
    exact absurd hb (by simp [DInit])
  · intro i k _ hb
    exact absurd hb (by simp [DInit])
  · intro k hl
    exact absurd hl (by simp [DInit])

theorem dInv_step {n : Nat} {K : Type} [DecidableEq K] {keys : Fin n → Option K}
    {s s' : DState n K} (hinv : DInv keys s) (hstep : DStep keys s s') :
    DInv keys s' := by
  obtain ⟨hmutex, hheld, hwit⟩ := hinv
  cases hstep with
  | enterNone i s hk hr =>
    refine ⟨?_, ?_, ?_⟩
    · intro a b k ha hb hpa hpb
      simp only at hpa hpb
      by_cases hai : a = i
      · subst hai; rw [ha] at hk; exact absurd hk (by simp)
      · by_cases hbi : b = i
        · subst hbi; rw [hb] at hk; exact absurd hk (by simp)
        · rw [if_neg hai] at hpa; rw [if_neg hbi] at hpb
          exact hmutex a b k ha hb hpa hpb
    · intro a k ha hpa
      simp only at hpa
      by_cases hai : a = i
      · subst hai; rw [ha] at hk; exact absurd hk (by simp)
      · rw [if_neg hai] at hpa
        exact hheld a k ha hpa
    · intro k hl
      obtain ⟨a, ha, hpa⟩ := hwit k hl
      refine ⟨a, ha, ?_⟩
      simp only
      by_cases hai : a = i
      · subst hai; rw [ha] at hk; exact absurd hk (by simp)
      · rw [if_neg hai]; exact hpa
  | enterLock i k₀ s hk hr hl0 =>
    refine ⟨?_, ?_, ?_⟩
    · intro a b k ha hb hpa hpb
      simp only at hpa hpb
      by_cases hai : a = i
      · by_cases hbi : b = i
        · rw [hai, hbi]
        · rw [if_neg hbi] at hpb
          subst hai
          rw [ha] at hk
          injection hk with hk
          subst hk
          have := hheld b k hb hpb
          rw [this] at hl0
          exact absurd hl0 (by simp)
      · rw [if_neg hai] at hpa
        by_cases hbi : b = i
        · subst hbi
          rw [hb] at hk
          injection hk with hk
          subst hk
          have := hheld a k ha hpa
          rw [this] at hl0
          exact absurd hl0 (by simp)
        · rw [if_neg hbi] at hpb
          exact hmutex a b k ha hb hpa hpb
    · intro a k ha hpa
      simp only at hpa ⊢
      by_cases hai : a = i
      · subst hai
        rw [ha] at hk
        injection hk with hk
        subst hk
        rw [if_pos rfl]
      · rw [if_neg hai] at hpa
        by_cases hkk : k = k₀
        · rw [if_pos hkk]
        · rw [if_neg hkk]
          exact hheld a k ha hpa
    · intro k hl
      simp only at hl
      by_cases hkk : k = k₀
      · subst hkk
        refine ⟨i, hk, ?_⟩
        simp
      · rw [if_neg hkk] at hl
        obtain ⟨a, ha, hpa⟩ := hwit k hl
        refine ⟨a, ha, ?_⟩
        simp only
        by_cases hai : a = i
        · subst hai
          rw [hpa] at hr
          exact absurd hr (by simp)
        · rw [if_neg hai]; exact hpa
  | exitNone i s hk hb =>
    refine ⟨?_, ?_, ?_⟩
    · intro a b k ha hbk hpa hpb
      simp only at hpa hpb
      by_cases hai : a = i
      · subst hai; rw [if_pos rfl] at hpa; exact absurd hpa (by simp)
      · rw [if_neg hai] at hpa
        by_cases hbi : b = i
        · subst hbi; rw [if_pos rfl] at hpb; exact absurd hpb (by simp)
        · rw [if_neg hbi] at hpb
          exact hmutex a b k ha hbk hpa hpb
    · intro a k ha hpa
      simp only at hpa
      by_cases hai : a = i
      · subst hai; rw [if_pos rfl] at hpa; exact absurd hpa (by simp)
      · rw [if_neg hai] at hpa
        exact hheld a k ha hpa
    · intro k hl
      obtain ⟨a, ha, hpa⟩ := hwit k hl
      refine ⟨a, ha, ?_⟩
      simp only
      by_cases hai : a = i
      · subst hai; rw [ha] at hk; exact absurd hk (by simp)
      · rw [if_neg hai]; exact hpa
  | exitLock i k₀ s hk hb =>
    refine ⟨?_, ?_, ?_⟩
    · intro a b k ha hbk hpa hpb
      simp only at hpa hpb
      by_cases hai : a = i
      · subst hai; rw [if_pos rfl] at hpa; exact absurd hpa (by simp)
      · rw [if_neg hai] at hpa
        by_cases hbi : b = i
        · subst hbi; rw [if_pos rfl] at hpb; exact absurd hpb (by simp)
        · rw [if_neg hbi] at hpb
          exact hmutex a b k ha hbk hpa hpb
    · intro a k ha hpa
      simp only at hpa ⊢
      by_cases hai : a = i
      · subst hai; rw [if_pos rfl] at hpa; exact absurd hpa (by simp)
      · rw [if_neg hai] at hpa
        by_cases hkk : k = k₀
        · subst hkk
          have := hmutex a i k ha hk hpa hb
          exact absurd this hai
        · rw [if_neg hkk]
          exact hheld a k ha hpa
    · intro k hl
      simp only at hl
      by_cases hkk : k = k₀
      · subst hkk; rw [if_pos rfl] at hl; exact absurd hl (by simp)
      · rw [if_neg hkk] at hl
        obtain ⟨a, ha, hpa⟩ := hwit k hl
        refine ⟨a, ha, ?_⟩
        simp only
        by_cases hai : a = i
        · subst hai
          rw [ha] at hk
          injection hk with hk
          exact absurd hk hkk
        · rw [if_neg hai]; exact hpa

theorem dInv_reachable {n : Nat} {K : Type} [DecidableEq K] {keys : Fin n → Option K}
    {s : DState n K} (h : DReachable keys s) : DInv keys s := by
  induction h with
  | refl => exact dInv_init keys
  | tail _ hstep ih => exact dInv_step ih hstep

/-- A pending task can enter its body whenever its key is `None` or its
lock is free; other phases and other locks are untouched. -/
theorem dStep_enter {n : Nat} {K : Type} [DecidableEq K] (keys : Fin n → Option K)
    (i : Fin n) (s : DState n K) (hr : s.phase i = .ready)
    (hfree : ∀ k : K, keys i = some k → s.locked k = false) :
    ∃ s', DStep keys s s' ∧ s'.phase i = .body ∧
      (∀ j : Fin n, j ≠ i → s'.phase j = s.phase j) ∧
      (∀ k : K, keys i ≠ some k → s'.locked k = s.locked k) := by
  cases hk : keys i with
  | none =>
    exact ⟨_, .enterNone i s hk hr, by simp, fun j hj => by simp [hj], fun k _ => rfl⟩
  | some k₀ =>
    refine ⟨_, .enterLock i k₀ s hk hr (hfree k₀ hk), by simp, fun j hj => by simp [hj], ?_⟩
    intro k hkk
    have hne : k ≠ k₀ := fun he => hkk (by rw [he])
    simp [hne]

/-! ### Claim C1 -/

/-- **C1.** Concurrent `call_event_handlers` dispatches with the same event
name and the same non-`None` caller identifier are serialized under the
composite key `(event, identifier)`: in no reachable state are two such
dispatches inside their prepare/handler section at once.  Dispatches whose
composite keys differ — different event name, different identifier, or
identifier `None` — are never serialized against each other: a pending one
can always enter its section immediately, and a state where both sections
overlap is in fact reachable. -/
theorem dispatch_serialized_per_composite_key {n : Nat} {ι : Type} [DecidableEq ι]
    (events : Fin n → String) (ids : Fin n → Option ι) :
    (∀ s : DState n (String × ι),
      DReachable (fun i => (ids i).map (fun x => (events i, x))) s →
      (∀ i j : Fin n, i ≠ j → events i = events j → ids i = ids j → ids i ≠ none →
        ¬(s.phase i = .body ∧ s.phase j = .body)) ∧
      (∀ i : Fin n, s.phase i = .ready →
        (ids i = none ∨ ∀ j : Fin n, j ≠ i → events j ≠ events i ∨ ids j ≠ ids i) →
        ∃ s', DStep (fun i => (ids i).map (fun x => (events i, x))) s s' ∧
          s'.phase i = .body)) ∧
    (∀ i j : Fin n, i ≠ j →
      (ids i = none ∨ ids j = none ∨ events i ≠ events j ∨ ids i ≠ ids j) →
      ∃ s : DState n (String × ι),
        DReachable (fun i => (ids i).map (fun x => (events i, x))) s ∧
        s.phase i = .body ∧ s.phase j = .body) := by
  constructor
  · intro s hreach
    obtain ⟨hmutex, hheld, hwit⟩ := dInv_reachable hreach
    constructor
    · intro i j hij hev hid hnn ⟨hbi, hbj⟩
      cases hx : ids i with
      | none => exact hnn hx
      | some x =>
        have hki : (ids i).map (fun y => (events i, y)) = some (events i, x) := by
          rw [hx]; rfl
        have hkj : (ids j).map (fun y => (events j, y)) = some (events i, x) := by
          rw [← hid, hx, ← hev]; rfl
        exact hij (hmutex i j (events i, x) hki hkj hbi hbj)
    · intro i hri hdisj
      have hfree : ∀ k : String × ι,
          (ids i).map (fun x => (events i, x)) = some k → s.locked k = false := by
        intro k hk
        cases hx : ids i with
        | none => rw [hx] at hk; exact absurd hk (by simp)
        | some x =>
          rw [hx] at hk
          simp only [Option.map_some'] at hk
          by_contra hcontra
          have hl : s.locked k = true := by
            cases hlk : s.locked k with
            | false => exact absurd hlk hcontra
            | true => rfl
          obtain ⟨a, ha, hba⟩ := hwit k hl
          simp only at ha
          cases hy : ids a with
          | none => rw [hy] at ha; exact absurd ha (by simp)
          | some y =>
            rw [hy] at ha
            simp only [Option.map_some', Option.some.injEq] at ha
            injection hk with hk2
            rw [← hk2] at ha
            have hev : events a = events i := congrArg Prod.fst ha
            have hyx : y = x := congrArg Prod.snd ha
            by_cases hai : a = i
            · subst hai
              rw [hba] at hri
              exact absurd hri (by simp)
            · rcases hdisj with hnone | hdisj
              · rw [hnone] at hx; exact absurd hx (by simp)
              · rcases hdisj a hai with hne | hne
                · exact hne hev
                · exact hne (by rw [hy, hx, hyx])
      obtain ⟨s', hstep, hb, _, _⟩ :=
        dStep_enter (fun a => (ids a).map (fun x => (events a, x))) i s hri hfree
      exact ⟨s', hstep, hb⟩
  · intro i j hij hdiff
    have hfree₀ : ∀ k : String × ι,
        (ids i).map (fun x => (events i, x)) = some k →
        (DInit n (String × ι)).locked k = false := fun _ _ => rfl
    obtain ⟨s₁, hstep₁, hbi₁, hph₁, hlk₁⟩ :=
      dStep_enter (fun a => (ids a).map (fun x => (events a, x))) i
        (DInit n (String × ι)) rfl hfree₀
    have hrj : s₁.phase j = .ready := by
      rw [hph₁ j (Ne.symm hij)]; rfl
    have hfree₁ : ∀ k : String × ι,
        (ids j).map (fun x => (events j, x)) = some k → s₁.locked k = false := by
      intro k hk
      have hkey : (ids i).map (fun x => (events i, x)) ≠ some k := by
        cases hy : ids j with
        | none => rw [hy] at hk; exact absurd hk (by simp)
        | some y =>
          rw [hy] at hk
          simp only [Option.map_some', Option.some.injEq] at hk
          cases hx : ids i with
          | none => simp
          | some x =>
            simp only [Option.map_some', ne_eq, Option.some.injEq]
            intro he
            rw [← hk] at he
            have hev : events i = events j := congrArg Prod.fst he
            have hxy : x = y := congrArg Prod.snd he
            rcases hdiff with h | h | h | h
            · rw [h] at hx; exact absurd hx (by simp)
            · rw [h] at hy; exact absurd hy (by simp)
            · exact h hev
            · exact h (by rw [hx, hy, hxy])
      rw [hlk₁ k hkey]
      rfl
    obtain ⟨s₂, hstep₂, hbj₂, hph₂, _⟩ :=
      dStep_enter (fun a => (ids a).map (fun x => (events a, x))) j s₁ hrj hfree₁
    refine ⟨s₂, ?_, ?_, hbj₂⟩
    · exact Relation.ReflTransGen.tail (Relation.ReflTransGen.tail
        Relation.ReflTransGen.refl hstep₁) hstep₂
    · rw [hph₂ i hij]
      exact hbi₁

/-- Witness for C1: with two dispatches of `"message"` for identifier `5`
the initial state has no overlapping bodies (serialization instance), and
with identifiers `5` and `6` a state where both bodies overlap is
reachable. -/
theorem dispatch_serialized_per_composite_key_witness :
    ((0 : Fin 2) ≠ 1 ∧
      ¬((DInit 2 (String × Nat)).phase 0 = .body ∧
        (DInit 2 (String × Nat)).phase 1 = .body)) ∧
    (∃ s : DState 2 (String × Nat),
      DReachable (fun i => ((fun a : Fin 2 => if a = 0 then some 5 else some 6) i).map
        (fun x => ((fun _ : Fin 2 => "message") i, x))) s ∧
      s.phase 0 = .body ∧ s.phase 1 = .body) := by
  constructor
  · refine ⟨by decide, ?_⟩
    exact ((dispatch_serialized_per_composite_key (fun _ : Fin 2 => "message")
      (fun _ : Fin 2 => some (5 : Nat))).1 (DInit 2 (String × Nat))
      Relation.ReflTransGen.refl).1 0 1 (by decide) rfl rfl (by decide)
  · exact (dispatch_serialized_per_composite_key (fun _ : Fin 2 => "message")
      (fun a : Fin 2 => if a = 0 then some (5 : Nat) else some 6)).2 0 1 (by decide)
      (by
        right; right; right
        decide)

end PyDrocsid

